import Mathlib

/-!
Verification of the fuzzy food-name resolution core of `health.py`
(`_norm`, `rebuild_indexes`, `search_foods`, `load_foods_merged`,
`_alphabet_pages`, and the confidence check in `cmd_food`).

Strings are modelled as `List Char` (Unicode code points, matching Python
`str`).  Python dicts are modelled as association lists with insertion-order
update semantics.  The floating point similarity thresholds `0.45` and `0.75`
are modelled as the exact rationals `45/100` and `3/4` via integer
cross-multiplication; with the short strings involved the float comparison in
CPython agrees with the exact rational comparison.
-/

set_option maxRecDepth 100000
set_option maxHeartbeats 1600000

/-- Python strings as lists of Unicode code points. -/
abbrev Str := List Char

/-- Python `str.lower()` of one character, as a character sequence: ASCII
`A`-`Z`, Cyrillic `А`-`Я` (U+0410..U+042F), the range U+0400..U+040F (which
contains `Є`, `І`, `Ї`), `Ґ` (U+0490), plus the full Unicode case mappings
whose image meets the character class kept by `_norm`: U+0130 (`İ`)
lowercases to `i` followed by the combining dot U+0307, and U+212A (the
Kelvin sign) lowercases to `k`.  Every other code point either has no
lowercase mapping or lowercases to characters the `_norm` regex removes, so
it is kept unchanged. -/
def pyLowerChar (c : Char) : List Char :=
  if 0x41 ≤ c.toNat ∧ c.toNat ≤ 0x5A then [Char.ofNat (c.toNat + 0x20)]
  else if 0x410 ≤ c.toNat ∧ c.toNat ≤ 0x42F then [Char.ofNat (c.toNat + 0x20)]
  else if 0x400 ≤ c.toNat ∧ c.toNat ≤ 0x40F then [Char.ofNat (c.toNat + 0x50)]
  else if c.toNat = 0x490 then [Char.ofNat 0x491]
  else if c.toNat = 0x130 then [Char.ofNat 0x69, Char.ofNat 0x307]
  else if c.toNat = 0x212A then [Char.ofNat 0x6B]
  else [c]

/-- Lowercase a whole string, as Python `s.lower()` (character to character
sequence, flattened). -/
def pyLowerStr (s : Str) : Str := (s.map pyLowerChar).flatten

/-- Code points matched by Python `\s` / removed by `str.strip()`. -/
def isPySpace (c : Char) : Bool :=
  decide (c.toNat = 0x20 ∨ c.toNat = 0x09 ∨ c.toNat = 0x0A ∨ c.toNat = 0x0B ∨
    c.toNat = 0x0C ∨ c.toNat = 0x0D ∨ (0x1C ≤ c.toNat ∧ c.toNat ≤ 0x1F) ∨
    c.toNat = 0x85 ∨ c.toNat = 0xA0 ∨ c.toNat = 0x1680 ∨
    (0x2000 ≤ c.toNat ∧ c.toNat ≤ 0x200A) ∨ c.toNat = 0x2028 ∨ c.toNat = 0x2029 ∨
    c.toNat = 0x202F ∨ c.toNat = 0x205F ∨ c.toNat = 0x3000)

/-- Python `str.strip()`: drop whitespace from both ends. -/
def pyStrip (s : Str) : Str :=
  ((s.dropWhile isPySpace).reverse.dropWhile isPySpace).reverse

/-- Characters kept by the regex character class `[a-zа-яіїєґ0-9\s\-ʼ']` of
`_norm` in `health.py`. -/
def isNormKept (c : Char) : Bool :=
  decide ((0x61 ≤ c.toNat ∧ c.toNat ≤ 0x7A) ∨ (0x430 ≤ c.toNat ∧ c.toNat ≤ 0x44F) ∨
    c.toNat = 0x456 ∨ c.toNat = 0x457 ∨ c.toNat = 0x454 ∨ c.toNat = 0x491 ∨
    (0x30 ≤ c.toNat ∧ c.toNat ≤ 0x39) ∨ isPySpace c = true ∨
    c.toNat = 0x2D ∨ c.toNat = 0x2BC ∨ c.toNat = 0x27)

/-- Embedding of `_norm` from `health.py`:
`re.sub(r"[^a-zа-яіїєґ0-9\s\-ʼ']", "", (s or "").lower().strip())`. -/
def _norm (s : Str) : Str := (pyStrip (pyLowerStr s)).filter isNormKept

/-! ### Python dicts as association lists -/

/-- Python `d[k] = v`: replace the value of an existing key in place (keeping
the key's insertion position), otherwise append the new binding at the end. -/
def dictSet {β : Type} : List (Str × β) → Str → β → List (Str × β)
  | [], k, v => [(k, v)]
  | (k1, v1) :: d, k, v =>
    if k = k1 then (k1, v) :: d else (k1, v1) :: dictSet d k v

/-- Python `d.get(k)` / `k in d` support: first binding of a key. -/
def dictFind {β : Type} : List (Str × β) → Str → Option β
  | [], _ => none
  | (k1, v1) :: d, k => if k = k1 then some v1 else dictFind d k

/-- Python `ALIAS[m]` for a key known to be present. -/
def dictGet (d : List (Str × Str)) (k : Str) : Str := (dictFind d k).getD []

/-- Python `list(d.keys())`: the keys in insertion order. -/
def dictKeys {β : Type} : List (Str × β) → List Str
  | [] => []
  | (k, _) :: d => k :: dictKeys d

/-! ### The difflib similarity kernel

`SequenceMatcher(None, a, b).ratio()` with no junk: `2*M/(len a + len b)`
where `M` is the total size of the matching blocks.  `health.py` only ever
compares short strings, so the autojunk heuristic (which needs
`len b >= 200`) never fires and is not modelled. -/

/-- Helper for `runLen`, structurally recursive on the distance `ahi - i`
(the fuel argument), so that it evaluates inside the kernel. -/
def runLenF (a b : Str) (bhi : Nat) : Nat → Nat → Nat → Nat
  | 0, _, _ => 0
  | fuel + 1, i, j =>
    if j < bhi ∧ i < a.length ∧ j < b.length ∧
        a.getD i (Char.ofNat 0) = b.getD j (Char.ofNat 0) then
      runLenF a b bhi fuel (i + 1) (j + 1) + 1
    else 0

/-- Length of the run of equal characters of `a` and `b` starting at
positions `i` and `j`, staying below `ahi` resp. `bhi`. -/
def runLen (a b : Str) (ahi bhi : Nat) (i j : Nat) : Nat :=
  runLenF a b bhi (ahi - i) i j

/-- Embedding of `SequenceMatcher.find_longest_match` on the window
`a[alo:ahi]`, `b[blo:bhi]` (no junk): the longest matching block, ties broken
by the smallest start in `a`, then the smallest start in `b`, as the
`j2len` loop of difflib does. -/
def bestMatch (a b : Str) (alo ahi blo bhi : Nat) : Nat × Nat × Nat :=
  ((List.range' alo (ahi - alo)).map (fun i =>
      (List.range' blo (bhi - blo)).map (fun j => (i, j, runLen a b ahi bhi i j)))).flatten.foldl
    (fun best c => if best.2.2 < c.2.2 then c else best) (alo, blo, 0)

/-- Total size of the matching blocks of `get_matching_blocks` (the recursive
divide-and-conquer around `find_longest_match`), computed with fuel; the
initial fuel `a.length + b.length + 1` always suffices because every
recursive call strictly shrinks the window. -/
def matchTotal (a b : Str) : Nat → Nat → Nat → Nat → Nat → Nat
  | 0, _, _, _, _ => 0
  | fuel + 1, alo, ahi, blo, bhi =>
    let t := bestMatch a b alo ahi blo bhi
    if t.2.2 = 0 then 0
    else
      t.2.2 + matchTotal a b fuel alo t.1 blo t.2.1 +
        matchTotal a b fuel (t.1 + t.2.2) ahi (t.2.1 + t.2.2) bhi

/-- Total matching size `M` of `SequenceMatcher(None, a, b)`. -/
def simM (a b : Str) : Nat :=
  matchTotal a b (a.length + b.length + 1) 0 a.length 0 b.length

/-- Decide `ratio(a, b) >= num/den`, i.e. `den * 2M >= num * (|a| + |b|)`. -/
def ratioGeB (a b : Str) (num den : Nat) : Bool :=
  decide (num * (a.length + b.length) ≤ den * (2 * simM a b))

/-- Decide `ratio(a, b) < num/den`. -/
def ratioLtB (a b : Str) (num den : Nat) : Bool :=
  decide (den * (2 * simM a b) < num * (a.length + b.length))

/-! ### get_close_matches and the resolver -/

/-- One scored candidate of `difflib.get_close_matches`: the matching size
`m`, the total length `t = len x + len word` and the possibility `x` itself.
The score is the rational `2*m/t`. -/
structure Cand where
  m : Nat
  t : Nat
  w : Str
deriving DecidableEq

/-- Python string comparison `x > y` (lexicographic on code points). -/
def strGtB : Str → Str → Bool
  | [], _ => false
  | _ :: _, [] => true
  | c :: cs, d :: ds => if c = d then strGtB cs ds else decide (d < c)

/-- Tuple comparison `(score x, word x) >= (score y, word y)` used by
`heapq.nlargest` on the `(ratio, possibility)` pairs built by
`get_close_matches`; scores `2*m/t` are compared by cross-multiplication. -/
def candGe (x y : Cand) : Bool :=
  if x.m * y.t = y.m * x.t then !(strGtB y.w x.w) else decide (y.m * x.t < x.m * y.t)

/-- Insert into a descending-sorted list (used to model `heapq.nlargest`,
which returns its input sorted in descending tuple order). -/
def insertDesc (x : Cand) : List Cand → List Cand
  | [] => [x]
  | y :: ys => if candGe x y then x :: y :: ys else y :: insertDesc x ys

/-- Sort candidates in descending `(score, word)` order. -/
def sortDesc (l : List Cand) : List Cand := l.foldr insertDesc []

/-- The candidates of `get_close_matches(word, poss, _, num/den)` that score
at least the cutoff: difflib keeps `x` when `ratio(x, word) >= cutoff`
(the `real_quick_ratio`/`quick_ratio` tests are upper bounds of `ratio`, so
the triple test is equivalent to the `ratio` test alone). -/
def closeCands (word : Str) (poss : List Str) (num den : Nat) : List Cand :=
  poss.filterMap (fun x =>
    let m := simM x word
    if num * (x.length + word.length) ≤ den * (2 * m) then
      some ⟨m, x.length + word.length, x⟩
    else none)

/-- Embedding of `difflib.get_close_matches(word, poss, n, num/den)`. -/
def get_close_matches (word : Str) (poss : List Str) (n : Nat) (num den : Nat) : List Str :=
  ((sortDesc (closeCands word poss num den)).take n).map Cand.w

/-- Python `x in l` over a list of strings (the `seen` membership test). -/
def memStr (x : Str) : List Str → Bool
  | [] => false
  | y :: l => if x = y then true else memStr x l

/-- The deduplication loop of `search_foods`: walk the close matches, map
each to its canonical key through `ALIAS`, keep first occurrences only, and
stop as soon as `len(out) >= n` (checked after each iteration, so a first
candidate is kept even when `n <= 0`). -/
def collectGo (aliasD : List (Str × Str)) (n : Int) : List Str → List Str → List Str
  | [], out => out
  | m1 :: ms, out =>
    let canon := dictGet aliasD m1
    let out1 := if memStr canon out then out else out ++ [canon]
    if n ≤ (out1.length : Int) then out1 else collectGo aliasD n ms out1

/-- Embedding of `search_foods(q, n)` from `health.py`, parameterized by the
`ALIAS` dict: normalize, short-circuit on an exact alias hit, otherwise take
the `max(n*3, 60)` closest alias keys at cutoff `0.45` and deduplicate them
by canonical key up to `n` results. -/
def search_foods (aliasD : List (Str × Str)) (q : Str) (n : Int) : List Str :=
  let qn := _norm q
  if qn = [] then []
  else if (dictFind aliasD qn).isSome then [dictGet aliasD qn]
  else
    collectGo aliasD n
      (get_close_matches qn (dictKeys aliasD) (max (n * 3) 60).toNat 45 100) []

/-- Full deduplication by canonical key, first occurrence wins. -/
def dedupCanon (aliasD : List (Str × Str)) : List Str → List Str → List Str
  | [], out => out
  | m1 :: ms, out =>
    let canon := dictGet aliasD m1
    dedupCanon aliasD ms (if memStr canon out then out else out ++ [canon])

/-- Modelled from the spec (fuzzy fallback of the Resolver): compute the
similarity between the normalized query and every registered alias string,
retain candidates with similarity at least `0.45`, sort by descending
similarity, deduplicate by canonical key keeping the first occurrence, and
truncate to `limit`. -/
def resolveSpec (aliasD : List (Str × Str)) (q : Str) (n : Int) : List Str :=
  let qn := _norm q
  (dedupCanon aliasD
    ((sortDesc (closeCands qn (dictKeys aliasD) 45 100)).map Cand.w) []).take n.toNat

/-! ### Corpus records and the indexer -/

/-- One raw record of `foods.json` / `user_foods.json` as `rebuild_indexes`
reads it: every field it calls `it.get(...)` on, `none` when the key is
absent.  The `nazva` field stands for the Ukrainian key `назва`. -/
structure RawItem where
  name_en : Option Str := none
  en : Option Str := none
  name : Option Str := none
  name_uk : Option Str := none
  uk : Option Str := none
  nazva : Option Str := none
  effect : Option Str := none
  vitamin_k : Option Str := none
  advice_en : Option Str := none
  advice_uk : Option Str := none
  advice : Option Str := none
  image : Option Str := none
  synonyms_en : Option (List Str) := none
  synonyms_uk : Option (List Str) := none
  sources : Option (List Str) := none
  nutrition : Option (List (Str × Str)) := none
deriving DecidableEq

/-- The coerced item built by `rebuild_indexes` for each record. -/
structure FoodItem where
  name_en : Str
  name_uk : Str
  effect : Str
  vitamin_k : Str
  advice_en : Str
  advice_uk : Str
  image : Str
  synonyms_en : List Str
  synonyms_uk : List Str
  sources : List Str
  nutrition : Option (List (Str × Str))
deriving DecidableEq

/-- Python `a or b or ... or d` over optional strings: the first present,
non-empty (truthy) value, else the default. -/
def firstTruthy : List (Option Str) → Str → Str
  | [], d => d
  | none :: rest, d => firstTruthy rest d
  | some s :: rest, d => if s = [] then firstTruthy rest d else s

/-- Python `x or ""` / `x or []` for an optional value defaulting to empty. -/
def orEmpty {α : Type} (o : Option (List α)) : List α := o.getD []

/-- Field coercion of one record in `rebuild_indexes`. -/
def mkItem (key : Str) (it : RawItem) : FoodItem :=
  let nameEn := pyStrip (firstTruthy [it.name_en, it.en, it.name] key)
  let nameUk := pyStrip (firstTruthy [it.name_uk, it.uk, it.nazva] nameEn)
  let eff0 := pyLowerStr (pyStrip (firstTruthy [it.effect] "neutral".data))
  let eff :=
    if eff0 = "increase".data ∨ eff0 = "decrease".data ∨ eff0 = "neutral".data then eff0
    else "neutral".data
  { name_en := nameEn
    name_uk := nameUk
    effect := eff
    vitamin_k := orEmpty it.vitamin_k
    advice_en := orEmpty it.advice_en
    advice_uk := firstTruthy [it.advice_uk, it.advice] []
    image := orEmpty it.image
    synonyms_en := orEmpty it.synonyms_en
    synonyms_uk := orEmpty it.synonyms_uk
    sources := orEmpty it.sources
    nutrition :=
      match it.nutrition with
      | some d => if d = [] then none else some d
      | none => none }

/-- The strings registered as aliases for one record, in source order:
`[name_en, name_uk, *synonyms_en, *synonyms_uk]`. -/
def aliasSources (item : FoodItem) : List Str :=
  item.name_en :: item.name_uk :: (item.synonyms_en ++ item.synonyms_uk)

/-- The alias registrations of one record: `ns = _norm(s); if ns:
alias[ns] = canon` for each source string. -/
def aliasFold (canon : Str) (a : List (Str × Str)) (srcs : List Str) : List (Str × Str) :=
  srcs.foldl (fun a s => let ns := _norm s; if ns = [] then a else dictSet a ns canon) a

/-- One iteration of the `rebuild_indexes` loop: register the coerced item
under its canonical key `name_en.lower()` and register all of its alias
variants. -/
def recordStep (acc : List (Str × FoodItem) × List (Str × Str)) (kv : Str × RawItem) :
    List (Str × FoodItem) × List (Str × Str) :=
  let item := mkItem kv.1 kv.2
  let canon := pyLowerStr item.name_en
  (dictSet acc.1 canon item, aliasFold canon acc.2 (aliasSources item))

/-- Embedding of `rebuild_indexes` from `health.py`, parameterized by the
merged raw corpus: returns the `(FOODS, ALIAS)` pair. -/
def rebuild_indexes (raw : List (Str × RawItem)) :
    List (Str × FoodItem) × List (Str × Str) :=
  raw.foldl recordStep ([], [])

/-! ### Corpus loading -/

/-- The observable state of a JSON file read by `_load_json_dict`: absent,
unreadable or corrupt (the `except` branch), or parsed content. -/
inductive FileState (α : Type) : Type
  | missing
  | corrupt
  | ok (d : List (Str × α))
deriving DecidableEq

/-- Embedding of `_load_json_dict`: `{}` when the file is absent, `{}` (after
a logged warning) when reading or parsing raises, the parsed dict otherwise. -/
def _load_json_dict {α : Type} : FileState α → List (Str × α)
  | .missing => []
  | .corrupt => []
  | .ok d => d

/-- Python `{**base, **user}`: base entries in order, entries of `user`
replacing same-key entries in place and new keys appended. -/
def dictMerge {β : Type} (base user : List (Str × β)) : List (Str × β) :=
  user.foldl (fun d kv => dictSet d kv.1 kv.2) base

/-- Embedding of `load_foods_merged`: merge the base corpus with the user
override corpus, the override winning per whole record. -/
def load_foods_merged (base user : FileState RawItem) : List (Str × RawItem) :=
  dictMerge (_load_json_dict base) (_load_json_dict user)

/-! ### The pager -/

/-- Python list slicing `l[i:j]` with int indices: negative indices count
from the end, and both bounds clamp to the list. -/
def pySlice {α : Type} (l : List α) (i j : Int) : List α :=
  let n : Int := l.length
  let i2 := if i < 0 then max (n + i) 0 else min i n
  let j2 := if j < 0 then max (n + j) 0 else min j n
  (l.take j2.toNat).drop i2.toNat

/-- An inline keyboard button: display text and callback data. -/
structure Btn where
  text : Str
  cdata : Str
deriving DecidableEq

/-- Python `str(i)` for an int. -/
def intToStr (i : Int) : Str :=
  if i < 0 then Char.ofNat 0x2D :: Nat.toDigits 10 i.natAbs else Nat.toDigits 10 i.natAbs

/-- The per-item button of `_alphabet_pages`: label and `show:{key}`. -/
def showBtn (p : Str × Str) : Btn := ⟨p.2, "show:".data ++ p.1⟩

/-- The `«` navigation button with callback `page:{page-1}`. -/
def prevBtn (page : Int) : Btn := ⟨"«".data, "page:".data ++ intToStr (page - 1)⟩

/-- The `»` navigation button with callback `page:{page+1}`. -/
def nextBtn (page : Int) : Btn := ⟨"»".data, "page:".data ++ intToStr (page + 1)⟩

/-- Embedding of `_alphabet_pages(pairs, page, per_page)`: one row per item
of the requested slice, plus a navigation row when at least one of the
`«`/`»` buttons is shown. -/
def _alphabet_pages (pairs : List (Str × Str)) (page : Int) (per_page : Int) :
    List (List Btn) :=
  let start := page * per_page
  let chunk := pySlice pairs start (start + per_page)
  let kb := chunk.map (fun p => [showBtn p])
  let nav :=
    (if 0 < page then [prevBtn page] else []) ++
      (if start + per_page < (pairs.length : Int) then [nextBtn page] else [])
  if nav = [] then kb else kb ++ [nav]

/-- Membership of a button in a keyboard. -/
def BtnIn (kb : List (List Btn)) (b : Btn) : Prop := ∃ row ∈ kb, b ∈ row

instance (kb : List (List Btn)) (b : Btn) : Decidable (BtnIn kb b) := by
  unfold BtnIn; infer_instance

/-! ### The cmd_food confidence check -/

/-- A fallback item for `FOODS[key]` lookups (never reached on keys produced
by the resolver, see the C9 theorem). -/
def emptyFoodItem : FoodItem :=
  { name_en := [], name_uk := [], effect := [], vitamin_k := [], advice_en := []
    advice_uk := [], image := [], synonyms_en := [], synonyms_uk := []
    sources := [], nutrition := none }

/-- Python `" ".join(l)`. -/
def joinSpace : List Str → Str
  | [] => []
  | [s] => s
  | s :: rest => s ++ ' ' :: joinSpace rest

/-- The reference text of `cmd_food`:
`f"{name_uk} {name_en} {' '.join(synonyms_uk)} {' '.join(synonyms_en)}"`. -/
def refText (foods : List (Str × FoodItem)) (key : Str) : Str :=
  let it := (dictFind foods key).getD emptyFoodItem
  it.name_uk ++ ' ' :: (it.name_en ++ ' ' ::
    (joinSpace it.synonyms_uk ++ ' ' :: joinSpace it.synonyms_en))

/-- The user-visible outcome of `cmd_food` for a given query. -/
inductive FoodReply : Type
  | noResults
  | didYouMean (ks : List Str)
  | card (k : Str)
deriving DecidableEq

/-- Embedding of the decision logic of `cmd_food`: resolve with `n=7`; on no
matches report nothing found; otherwise auto-accept the top match unless the
whole-string similarity of the normalized query against the top record's
reference text is below `0.75`, in which case list all candidates. -/
def cmd_food (foods : List (Str × FoodItem)) (aliasD : List (Str × Str)) (q : Str) :
    FoodReply :=
  match search_foods aliasD q 7 with
  | [] => .noResults
  | key :: rest =>
    if ratioLtB (_norm q) (_norm (refText foods key)) 3 4 then .didYouMean (key :: rest)
    else .card key

/-- The raw record of the example corpus of the spec (§8). -/
def spinachRaw : RawItem :=
  { name_en := some "Spinach".data
    name_uk := some "Шпинат".data
    effect := some "increase".data
    synonyms_uk := some ["шпінат".data] }

/-- The one-record example corpus of the spec (§8). -/
def spinachCorpus : List (Str × RawItem) := [("spinach".data, spinachRaw)]

example : simM "spinch".data "spinach".data = 6 := by decide
example : ratioGeB "spinch".data "spinach".data 45 100 = true := by decide
example : _norm " Шпінат ".data = "шпінат".data := by decide
example : _norm "xyz!!".data = "xyz".data := by decide
example :
    search_foods [("spinach".data, "spinach".data), ("шпинат".data, "spinach".data),
      ("шпінат".data, "spinach".data)] "spinch".data 5 = ["spinach".data] := by decide
example :
    search_foods [("spinach".data, "spinach".data), ("шпінат".data, "spinach".data)]
      "шпінат".data 5 = ["spinach".data] := by decide
example :
    search_foods [("spinach".data, "spinach".data)] "xyz123".data 5 = [] := by decide
example :
    resolveSpec [("spinach".data, "spinach".data), ("шпинат".data, "spinach".data)]
      "spinch".data 5 = ["spinach".data] := by decide


/-! ### Dictionary lemmas -/

theorem dictFind_dictSet_self {β : Type} (d : List (Str × β)) (k : Str) (v : β) :
    dictFind (dictSet d k v) k = some v := by
  induction d with
  | nil => simp [dictSet, dictFind]
  | cons p d ih =>
    obtain ⟨k1, v1⟩ := p
    by_cases h : k = k1
    · simp [dictSet, dictFind, h]
    · simp [dictSet, dictFind, h, ih]

theorem dictFind_dictSet_ne {β : Type} (d : List (Str × β)) (k q : Str) (v : β)
    (h : q ≠ k) : dictFind (dictSet d k v) q = dictFind d q := by
  induction d with
  | nil => simp [dictSet, dictFind, h]
  | cons p d ih =>
    obtain ⟨k1, v1⟩ := p
    by_cases h1 : k = k1
    · subst h1
      simp [dictSet, dictFind, h]
    · by_cases h2 : q = k1 <;> simp [dictSet, dictFind, h1, h2, ih]

theorem mem_dictKeys_dictSet {β : Type} (d : List (Str × β)) (k q : Str) (v : β) :
    q ∈ dictKeys (dictSet d k v) ↔ q ∈ dictKeys d ∨ q = k := by
  induction d with
  | nil => simp [dictSet, dictKeys]
  | cons p d ih =>
    obtain ⟨k1, v1⟩ := p
    by_cases h : k = k1
    · subst h
      simp [dictSet, dictKeys]
      tauto
    · simp [dictSet, dictKeys, h, ih]
      tauto

theorem mem_dictSet {β : Type} (d : List (Str × β)) (k : Str) (v : β) (p : Str × β)
    (h : p ∈ dictSet d k v) : p ∈ d ∨ p.2 = v := by
  induction d with
  | nil =>
    simp [dictSet] at h
    subst h
    simp
  | cons p1 d ih =>
    obtain ⟨k1, v1⟩ := p1
    by_cases h1 : k = k1
    · simp [dictSet, h1] at h
      rcases h with h | h
      · right; rw [h]
      · left; simp [h]
    · simp [dictSet, h1] at h
      rcases h with h | h
      · left; simp [h]
      · rcases ih h with h2 | h2
        · left; simp [h2]
        · right; exact h2

theorem dictFind_mem {β : Type} (d : List (Str × β)) (q : Str) (v : β)
    (h : dictFind d q = some v) : (q, v) ∈ d := by
  induction d with
  | nil => simp [dictFind] at h
  | cons p d ih =>
    obtain ⟨k1, v1⟩ := p
    by_cases h1 : q = k1
    · simp [dictFind, h1] at h
      subst h1
      rw [← h]
      simp
    · simp [dictFind, h1] at h
      simp [ih h]

theorem dictFind_isSome_of_mem_dictKeys {β : Type} (d : List (Str × β)) (q : Str)
    (h : q ∈ dictKeys d) : (dictFind d q).isSome = true := by
  induction d with
  | nil => simp [dictKeys] at h
  | cons p d ih =>
    obtain ⟨k1, v1⟩ := p
    by_cases h1 : q = k1
    · simp [dictFind, h1]
    · simp [dictKeys, h1] at h
      simp [dictFind, h1, ih h]

theorem mem_dictKeys_of_dictFind {β : Type} (d : List (Str × β)) (q : Str) (v : β)
    (h : dictFind d q = some v) : q ∈ dictKeys d := by
  induction d with
  | nil => simp [dictFind] at h
  | cons p d ih =>
    obtain ⟨k1, v1⟩ := p
    by_cases h1 : q = k1
    · simp [dictKeys, h1]
    · simp [dictFind, h1] at h
      simp [dictKeys, ih h]

/-! ### Sorting lemmas -/

theorem length_insertDesc (x : Cand) (l : List Cand) :
    (insertDesc x l).length = l.length + 1 := by
  induction l with
  | nil => simp [insertDesc]
  | cons y ys ih =>
    by_cases h : candGe x y = true <;> simp [insertDesc, h, ih]

theorem length_sortDesc (l : List Cand) : (sortDesc l).length = l.length := by
  induction l with
  | nil => simp [sortDesc]
  | cons x xs ih =>
    simp only [sortDesc, List.foldr] at ih ⊢
    rw [length_insertDesc, ih, List.length_cons]

theorem mem_insertDesc (x y : Cand) (l : List Cand) :
    y ∈ insertDesc x l ↔ y = x ∨ y ∈ l := by
  induction l with
  | nil => simp [insertDesc]
  | cons z zs ih =>
    by_cases h : candGe x z = true
    · simp [insertDesc, h]
    · simp [insertDesc, h, ih]
      tauto

theorem mem_sortDesc (y : Cand) (l : List Cand) : y ∈ sortDesc l ↔ y ∈ l := by
  induction l with
  | nil => simp [sortDesc]
  | cons x xs ih =>
    simp only [sortDesc, List.foldr] at ih ⊢
    rw [mem_insertDesc]
    simp [ih]

theorem closeCands_w_mem (word : Str) (poss : List Str) (num den : Nat) (c : Cand)
    (h : c ∈ closeCands word poss num den) : c.w ∈ poss := by
  simp only [closeCands, List.mem_filterMap] at h
  obtain ⟨x, hx, hc⟩ := h
  by_cases h2 : num * (x.length + word.length) ≤ den * (2 * simM x word)
  · simp only [h2, if_pos] at hc
    cases hc
    exact hx
  · simp [h2] at hc

theorem get_close_matches_subset (word : Str) (poss : List Str) (n num den : Nat)
    (m : Str) (h : m ∈ get_close_matches word poss n num den) : m ∈ poss := by
  simp only [get_close_matches, List.mem_map] at h
  obtain ⟨c, hc, hw⟩ := h
  have hc2 : c ∈ sortDesc (closeCands word poss num den) := List.mem_of_mem_take hc
  rw [mem_sortDesc] at hc2
  rw [← hw]
  exact closeCands_w_mem word poss num den c hc2

/-! ### Deduplication loop lemmas -/

theorem collectGo_cons (aliasD : List (Str × Str)) (n : Int) (m : Str) (ms out : List Str) :
    collectGo aliasD n (m :: ms) out =
      (fun out1 => if n ≤ (out1.length : Int) then out1 else collectGo aliasD n ms out1)
        (if memStr (dictGet aliasD m) out then out else out ++ [dictGet aliasD m]) := rfl

theorem dedupCanon_cons (aliasD : List (Str × Str)) (m : Str) (ms out : List Str) :
    dedupCanon aliasD (m :: ms) out =
      dedupCanon aliasD ms
        (if memStr (dictGet aliasD m) out then out else out ++ [dictGet aliasD m]) :=
  rfl

theorem dedupCanon_ext (aliasD : List (Str × Str)) (ms : List Str) :
    ∀ out, ∃ ext, dedupCanon aliasD ms out = out ++ ext := by
  induction ms with
  | nil => intro out; exact ⟨[], by simp [dedupCanon]⟩
  | cons m ms ih =>
    intro out
    rw [dedupCanon_cons]
    by_cases h : memStr (dictGet aliasD m) out = true
    · obtain ⟨ext, hext⟩ := ih out
      exact ⟨ext, by rw [if_pos h]; exact hext⟩
    · obtain ⟨ext, hext⟩ := ih (out ++ [dictGet aliasD m])
      refine ⟨dictGet aliasD m :: ext, ?_⟩
      rw [if_neg h, hext]
      simp

theorem collectGo_eq_dedup_take (aliasD : List (Str × Str)) (n : Int) (hn : 0 < n)
    (ms : List Str) : ∀ out, (out.length : Int) < n →
    collectGo aliasD n ms out = (dedupCanon aliasD ms out).take n.toNat := by
  induction ms with
  | nil =>
    intro out hlt
    have h : out.length ≤ n.toNat := by omega
    simp [collectGo, dedupCanon, List.take_of_length_le h]
  | cons m ms ih =>
    intro out hlt
    rw [collectGo_cons, dedupCanon_cons]
    set out1 := if memStr (dictGet aliasD m) out then out else out ++ [dictGet aliasD m]
      with hout1
    have hlen : out1.length ≤ out.length + 1 := by
      rw [hout1]
      split <;> simp
    simp only []
    by_cases hstop : n ≤ (out1.length : Int)
    · rw [if_pos hstop]
      have htn : out1.length = n.toNat := by omega
      obtain ⟨ext, hext⟩ := dedupCanon_ext aliasD ms out1
      rw [hext, ← htn, List.take_left]
    · rw [if_neg hstop]
      exact ih out1 (by omega)

theorem collectGo_subset (aliasD : List (Str × Str)) (n : Int) (ms : List Str) :
    ∀ out k, k ∈ collectGo aliasD n ms out → k ∈ out ∨ ∃ m ∈ ms, k = dictGet aliasD m := by
  induction ms with
  | nil =>
    intro out k h
    simp [collectGo] at h
    exact Or.inl h
  | cons m ms ih =>
    intro out k h
    rw [collectGo_cons] at h
    set out1 := if memStr (dictGet aliasD m) out then out else out ++ [dictGet aliasD m]
      with hout1
    simp only [] at h
    have hmem : k ∈ out1 → k ∈ out ∨ ∃ m2 ∈ m :: ms, k = dictGet aliasD m2 := by
      intro hk
      rw [hout1] at hk
      by_cases hc : memStr (dictGet aliasD m) out = true
      · rw [if_pos hc] at hk
        exact Or.inl hk
      · rw [if_neg hc] at hk
        rcases List.mem_append.mp hk with hk | hk
        · exact Or.inl hk
        · simp at hk
          exact Or.inr ⟨m, by simp, hk⟩
    by_cases hstop : n ≤ (out1.length : Int)
    · rw [if_pos hstop] at h
      exact hmem h
    · rw [if_neg hstop] at h
      rcases ih out1 k h with h2 | ⟨m2, hm2, hk⟩
      · exact hmem h2
      · exact Or.inr ⟨m2, by simp [hm2], hk⟩

theorem collectGo_length (aliasD : List (Str × Str)) (n : Int) (ms : List Str) :
    ∀ out, ((out.length : Int) < n ∨ out = []) →
    ((collectGo aliasD n ms out).length : Int) ≤ max n 1 := by
  induction ms with
  | nil =>
    intro out h
    rcases h with h | h
    · simp only [collectGo]
      omega
    · subst h
      simp only [collectGo, List.length_nil, Nat.cast_zero]
      omega
  | cons m ms ih =>
    intro out h
    rw [collectGo_cons]
    set out1 := if memStr (dictGet aliasD m) out then out else out ++ [dictGet aliasD m]
      with hout1
    have hlen : out1.length ≤ out.length + 1 := by
      rw [hout1]
      split <;> simp
    have hb : (out1.length : Int) ≤ max n 1 := by
      rcases h with h | h
      · omega
      · subst h
        simp at hlen
        omega
    simp only []
    by_cases hstop : n ≤ (out1.length : Int)
    · rw [if_pos hstop]
      exact hb
    · rw [if_neg hstop]
      exact ih out1 (Or.inl (by omega))

/-! ### Normalizer lemmas -/

/-- The allowed character set as the spec names it: Latin letters (either
case), the Cyrillic letters of the secondary language (either case), digits,
whitespace, hyphen and the apostrophe variants. -/
def specAllowedChar (c : Char) : Bool :=
  isNormKept c ||
    decide ((0x41 ≤ c.toNat ∧ c.toNat ≤ 0x5A) ∨ (0x400 ≤ c.toNat ∧ c.toNat ≤ 0x42F) ∨
      c.toNat = 0x490)

theorem disallowed_char_fix (c : Char) (h : specAllowedChar c = false)
    (hk : c.toNat ≠ 0x212A) (hi : c.toNat ≠ 0x130) :
    pyLowerChar c = [c] ∧ isNormKept c = false := by
  simp only [specAllowedChar, Bool.or_eq_false_iff, decide_eq_false_iff_not] at h
  obtain ⟨h1, h2⟩ := h
  refine ⟨?_, h1⟩
  have hA : ¬(0x41 ≤ c.toNat ∧ c.toNat ≤ 0x5A) := by omega
  have hB : ¬(0x410 ≤ c.toNat ∧ c.toNat ≤ 0x42F) := by omega
  have hC : ¬(0x400 ≤ c.toNat ∧ c.toNat ≤ 0x40F) := by omega
  have hD : ¬(c.toNat = 0x490) := by omega
  rw [pyLowerChar, if_neg hA, if_neg hB, if_neg hC, if_neg hD, if_neg hi, if_neg hk]

theorem flatten_map_singleton {f : Char → List Char} :
    ∀ l : Str, (∀ c ∈ l, f c = [c]) → (l.map f).flatten = l := by
  intro l
  induction l with
  | nil => intro _; rfl
  | cons c cs ih =>
    intro h
    simp only [List.map_cons, List.flatten_cons]
    rw [h c (by simp), ih (fun x hx => h x (by simp [hx]))]
    rfl

theorem mem_pyStrip (s : Str) (c : Char) (h : c ∈ pyStrip s) : c ∈ s := by
  unfold pyStrip at h
  rw [List.mem_reverse] at h
  have h2 := (List.dropWhile_sublist isPySpace).subset h
  rw [List.mem_reverse] at h2
  exact (List.dropWhile_sublist isPySpace).subset h2

theorem norm_eq_nil_of_disallowed (q : Str)
    (h : ∀ c ∈ q, specAllowedChar c = false ∧ c.toNat ≠ 0x212A ∧ c.toNat ≠ 0x130) :
    _norm q = [] := by
  unfold _norm
  have hmap : pyLowerStr q = q :=
    flatten_map_singleton q
      (fun c hc => (disallowed_char_fix c (h c hc).1 (h c hc).2.1 (h c hc).2.2).1)
  rw [hmap]
  rw [List.filter_eq_nil_iff]
  intro c hc
  have hmem := mem_pyStrip q c hc
  have := (disallowed_char_fix c (h c hmem).1 (h c hmem).2.1 (h c hmem).2.2).2
  simp [this]

/-! ### search_foods path lemmas -/

theorem search_foods_nil (aliasD : List (Str × Str)) (q : Str) (n : Int)
    (h : _norm q = []) : search_foods aliasD q n = [] := by
  simp [search_foods, h]

theorem search_foods_exact (aliasD : List (Str × Str)) (q : Str) (n : Int) (c : Str)
    (hne : _norm q ≠ []) (h : dictFind aliasD (_norm q) = some c) :
    search_foods aliasD q n = [c] := by
  simp only [search_foods]
  rw [if_neg hne, if_pos (by rw [h]; rfl)]
  simp [dictGet, h]

/-! ### Indexer lemmas -/

theorem aliasFold_cons (canon : Str) (a : List (Str × Str)) (s : Str) (rest : List Str) :
    aliasFold canon a (s :: rest) =
      aliasFold canon (if _norm s = [] then a else dictSet a (_norm s) canon) rest := rfl

theorem aliasFold_find_of_not_mem (canon ns : Str) (srcs : List Str)
    (h : ∀ s ∈ srcs, _norm s ≠ ns) :
    ∀ a, dictFind (aliasFold canon a srcs) ns = dictFind a ns := by
  induction srcs with
  | nil => intro a; rfl
  | cons s rest ih =>
    intro a
    rw [aliasFold_cons]
    rw [ih (fun t ht => h t (by simp [ht]))]
    by_cases hs : _norm s = []
    · rw [if_pos hs]
    · rw [if_neg hs, dictFind_dictSet_ne]
      exact fun hcontra => h s (by simp) hcontra.symm

theorem aliasFold_find_of_mem (canon ns : Str) (srcs : List Str)
    (hne : ns ≠ []) (h : ∃ s ∈ srcs, _norm s = ns) :
    ∀ a, dictFind (aliasFold canon a srcs) ns = some canon := by
  induction srcs with
  | nil => simp at h
  | cons s rest ih =>
    intro a
    rw [aliasFold_cons]
    by_cases hrest : ∃ t ∈ rest, _norm t = ns
    · exact ih hrest _
    · obtain ⟨t, ht, hts⟩ := h
      have hs : _norm s = ns := by
        rcases List.mem_cons.mp ht with h2 | h2
        · rw [← h2]; exact hts
        · exact absurd ⟨t, h2, hts⟩ hrest
      have hs2 : _norm s ≠ [] := by rw [hs]; exact hne
      rw [if_neg hs2]
      push_neg at hrest
      rw [aliasFold_find_of_not_mem canon ns rest hrest]
      rw [← hs, dictFind_dictSet_self]

theorem foldl_recordStep_find_preserve (post : List (Str × RawItem)) (ns : Str)
    (h : ∀ kv ∈ post, ∀ s ∈ aliasSources (mkItem kv.1 kv.2), _norm s ≠ ns) :
    ∀ acc, dictFind (post.foldl recordStep acc).2 ns = dictFind acc.2 ns := by
  induction post with
  | nil => intro acc; rfl
  | cons kv rest ih =>
    intro acc
    rw [List.foldl_cons]
    rw [ih (fun kv2 h2 => h kv2 (by simp [h2]))]
    exact aliasFold_find_of_not_mem _ ns _ (h kv (by simp)) acc.2

theorem aliasFold_mem (canon : Str) (srcs : List Str) (p : Str × Str) :
    ∀ a, p ∈ aliasFold canon a srcs → p ∈ a ∨ p.2 = canon := by
  induction srcs with
  | nil => intro a h; exact Or.inl h
  | cons s rest ih =>
    intro a h
    rw [aliasFold_cons] at h
    by_cases hs : _norm s = []
    · rw [if_pos hs] at h
      exact ih a h
    · rw [if_neg hs] at h
      rcases ih _ h with h2 | h2
      · rcases mem_dictSet _ _ _ _ h2 with h3 | h3
        · exact Or.inl h3
        · exact Or.inr h3
      · exact Or.inr h2

theorem aliasFold_keys_ne_nil (canon : Str) (srcs : List Str) :
    ∀ a, (∀ k ∈ dictKeys a, k ≠ ([] : Str)) →
    ∀ k ∈ dictKeys (aliasFold canon a srcs), k ≠ ([] : Str) := by
  induction srcs with
  | nil => intro a ha; exact ha
  | cons s rest ih =>
    intro a ha
    rw [aliasFold_cons]
    by_cases hs : _norm s = []
    · rw [if_pos hs]
      exact ih a ha
    · rw [if_neg hs]
      refine ih _ ?_
      intro k hk
      rcases (mem_dictKeys_dictSet _ _ _ _).mp hk with h2 | h2
      · exact ha k h2
      · rw [h2]; exact hs

theorem rebuild_alias_keys_ne_nil (raw : List (Str × RawItem)) :
    ∀ acc, (∀ k ∈ dictKeys acc.2, k ≠ ([] : Str)) →
    ∀ k ∈ dictKeys (raw.foldl recordStep acc).2, k ≠ ([] : Str) := by
  induction raw with
  | nil => intro acc h; exact h
  | cons kv rest ih =>
    intro acc h
    rw [List.foldl_cons]
    exact ih _ (aliasFold_keys_ne_nil _ _ acc.2 h)

theorem rebuild_alias_vals_in_foods (raw : List (Str × RawItem)) :
    ∀ acc, (∀ p ∈ acc.2, p.2 ∈ dictKeys acc.1) →
    ∀ p ∈ (raw.foldl recordStep acc).2, p.2 ∈ dictKeys (raw.foldl recordStep acc).1 := by
  induction raw with
  | nil => intro acc h; exact h
  | cons kv rest ih =>
    intro acc h
    rw [List.foldl_cons]
    refine ih _ ?_
    intro p hp
    rcases aliasFold_mem _ _ p acc.2 hp with h2 | h2
    · exact (mem_dictKeys_dictSet _ _ _ _).mpr (Or.inl (h p h2))
    · exact (mem_dictKeys_dictSet _ _ _ _).mpr (Or.inr h2)

/-! ### Merge lemmas -/

theorem dictMerge_cons {β : Type} (b : List (Str × β)) (k0 : Str) (v0 : β)
    (u : List (Str × β)) : dictMerge b ((k0, v0) :: u) = dictMerge (dictSet b k0 v0) u := rfl

theorem dictMerge_find_not_mem {β : Type} (u : List (Str × β)) (k : Str)
    (h : k ∉ dictKeys u) : ∀ b, dictFind (dictMerge b u) k = dictFind b k := by
  induction u with
  | nil => intro b; rfl
  | cons p u ih =>
    obtain ⟨k0, v0⟩ := p
    intro b
    simp only [dictKeys, List.mem_cons, not_or] at h
    rw [dictMerge_cons, ih h.2, dictFind_dictSet_ne _ _ _ _ h.1]

theorem dictMerge_find_override {β : Type} (u : List (Str × β)) (k : Str) (v : β)
    (hnd : (dictKeys u).Nodup) (h : dictFind u k = some v) :
    ∀ b, dictFind (dictMerge b u) k = some v := by
  induction u with
  | nil => simp [dictFind] at h
  | cons p u ih =>
    obtain ⟨k0, v0⟩ := p
    intro b
    simp only [dictKeys, List.nodup_cons] at hnd
    by_cases hk : k = k0
    · subst hk
      simp only [dictFind, if_pos rfl] at h
      cases h
      rw [dictMerge_cons, dictMerge_find_not_mem u k hnd.1, dictFind_dictSet_self]
    · simp only [dictFind, if_neg hk] at h
      rw [dictMerge_cons]
      exact ih hnd.2 h _

theorem dictMerge_find_base {β : Type} (u : List (Str × β)) (k : Str)
    (h : dictFind u k = none) : ∀ b, dictFind (dictMerge b u) k = dictFind b k := by
  induction u with
  | nil => intro b; rfl
  | cons p u ih =>
    obtain ⟨k0, v0⟩ := p
    intro b
    by_cases hk : k = k0
    · simp [dictFind, hk] at h
    · simp only [dictFind, if_neg hk] at h
      rw [dictMerge_cons, ih h, dictFind_dictSet_ne _ _ _ _ hk]

/-! ### Pager lemmas -/

theorem showBtn_ne_prevBtn (p : Str × Str) (page : Int) : showBtn p ≠ prevBtn page := by
  intro h
  have h2 := congrArg Btn.cdata h
  simp only [showBtn, prevBtn] at h2
  have h3 := congrArg (fun l : Str => l.headD (Char.ofNat 0)) h2
  simp at h3

theorem showBtn_ne_nextBtn (p : Str × Str) (page : Int) : showBtn p ≠ nextBtn page := by
  intro h
  have h2 := congrArg Btn.cdata h
  simp only [showBtn, nextBtn] at h2
  have h3 := congrArg (fun l : Str => l.headD (Char.ofNat 0)) h2
  simp at h3

theorem prevBtn_ne_nextBtn (page page2 : Int) : prevBtn page ≠ nextBtn page2 := by
  intro h
  have h2 := congrArg Btn.text h
  simp only [prevBtn, nextBtn] at h2
  have h3 := congrArg (fun l : Str => l.headD (Char.ofNat 0)) h2
  simp at h3

theorem btnIn_alphabet_pages (pairs : List (Str × Str)) (page per : Int) (b : Btn) :
    BtnIn (_alphabet_pages pairs page per) b ↔
      (∃ p ∈ pySlice pairs (page * per) (page * per + per), b = showBtn p) ∨
      b ∈ ((if 0 < page then [prevBtn page] else []) ++
        (if page * per + per < (pairs.length : Int) then [nextBtn page] else [])) := by
  unfold _alphabet_pages BtnIn
  set nav := (if 0 < page then [prevBtn page] else []) ++
    (if page * per + per < (pairs.length : Int) then [nextBtn page] else []) with hnav
  by_cases h : nav = []
  · rw [if_pos h, h]
    simp only [List.mem_nil_iff, or_false]
    constructor
    · rintro ⟨row, hrow, hb⟩
      simp only [List.mem_map] at hrow
      obtain ⟨p, hp, hrow2⟩ := hrow
      rw [← hrow2] at hb
      simp at hb
      exact ⟨p, hp, hb⟩
    · rintro ⟨p, hp, hb⟩
      exact ⟨[showBtn p], List.mem_map_of_mem _ hp, by simp [hb]⟩
  · rw [if_neg h]
    constructor
    · rintro ⟨row, hrow, hb⟩
      rcases List.mem_append.mp hrow with hrow | hrow
      · simp only [List.mem_map] at hrow
        obtain ⟨p, hp, hrow2⟩ := hrow
        rw [← hrow2] at hb
        simp at hb
        exact Or.inl ⟨p, hp, hb⟩
      · simp at hrow
        rw [hrow] at hb
        exact Or.inr hb
    · rintro (⟨p, hp, hb⟩ | hb)
      · exact ⟨[showBtn p], List.mem_append.mpr (Or.inl (List.mem_map_of_mem _ hp)),
          by simp [hb]⟩
      · exact ⟨nav, List.mem_append.mpr (Or.inr (by simp)), hb⟩

theorem pySlice_eq_nil_of_le {α : Type} (l : List α) (i j : Int)
    (h : (l.length : Int) ≤ i) : pySlice l i j = [] := by
  simp only [pySlice]
  rw [if_neg (by omega)]
  have hmin : min i ((l.length : Nat) : Int) = ((l.length : Nat) : Int) := by omega
  rw [hmin, Int.toNat_natCast]
  apply List.drop_eq_nil_of_le
  rw [List.length_take]
  exact min_le_right _ _

/-! ### Claim theorems -/

/-- C1 (amended): for every query whose normalization is non-empty and is not
a registered alias, and whose alias map has at most `max(3*limit, 60)` alias
strings scoring at least `0.45` against the normalized query, `search_foods`
equals the spec pipeline: score every alias, retain those at least `0.45`,
sort by descending similarity, deduplicate by canonical key keeping the first
occurrence, truncate to `limit` (assumed positive).  Without the candidate
bound the two differ, see the counterexample. -/
theorem c1_fuzzy_pipeline (aliasD : List (Str × Str)) (q : Str) (n : Int)
    (hn : 0 < n) (hne : _norm q ≠ []) (hmiss : dictFind aliasD (_norm q) = none)
    (hcap : ((closeCands (_norm q) (dictKeys aliasD) 45 100).length : Int) ≤
      max (n * 3) 60) :
    search_foods aliasD q n = resolveSpec aliasD q n := by
  simp only [search_foods, resolveSpec]
  rw [if_neg hne, if_neg (by rw [hmiss]; simp)]
  have hcap2 : (0 : Int) ≤ max (n * 3) 60 := by omega
  have hlen : (sortDesc (closeCands (_norm q) (dictKeys aliasD) 45 100)).length ≤
      (max (n * 3) 60).toNat := by
    rw [length_sortDesc]
    omega
  simp only [get_close_matches]
  rw [List.take_of_length_le hlen]
  exact collectGo_eq_dedup_take aliasD n hn _ [] (by simp; omega)

/-- C1 counterexample: a 61-alias map in which the first 60 closest aliases
(the cap `max(3*2, 60)` keeps exactly 60) all share one canonical key while
the 61st, still scoring at least `0.45`, maps to a second key.  The query
normalizes to a non-empty string that is not a registered alias, yet
`search_foods` returns one key where the claimed threshold-sort-dedup-truncate
pipeline returns two. -/
theorem c1_counterexample :
    _norm "ab".data ≠ [] ∧
    dictFind (((List.range 60).map
        (fun i => [Char.ofNat (99 + i / 8), Char.ofNat (99 + i % 8)])).map
          (fun t => ('a' :: 'b' :: t, "x".data)) ++ [("abccc".data, "y".data)])
      (_norm "ab".data) = none ∧
    search_foods (((List.range 60).map
        (fun i => [Char.ofNat (99 + i / 8), Char.ofNat (99 + i % 8)])).map
          (fun t => ('a' :: 'b' :: t, "x".data)) ++ [("abccc".data, "y".data)])
      "ab".data 2 ≠
    resolveSpec (((List.range 60).map
        (fun i => [Char.ofNat (99 + i / 8), Char.ofNat (99 + i % 8)])).map
          (fun t => ('a' :: 'b' :: t, "x".data)) ++ [("abccc".data, "y".data)])
      "ab".data 2 := by
  decide

/-- C1 witness: a one-alias map trivially satisfies the candidate bound and
there the resolver agrees with the spec pipeline. -/
theorem c1_fuzzy_pipeline_witness :
    search_foods [("spinach".data, "spinach".data)] "spinch".data 2 =
      resolveSpec [("spinach".data, "spinach".data)] "spinch".data 2 :=
  c1_fuzzy_pipeline [("spinach".data, "spinach".data)] "spinch".data 2
    (by decide) (by decide) (by decide) (by decide)

/-- C2: whenever the normalized query is a registered alias of an index built
by `rebuild_indexes`, `search_foods` returns exactly the one-element list
with that alias's canonical key, for every limit; the fuzzy branch is never
reached. -/
theorem c2_exact_alias (raw : List (Str × RawItem)) (q : Str) (n : Int) (c : Str)
    (h : dictFind (rebuild_indexes raw).2 (_norm q) = some c) :
    search_foods (rebuild_indexes raw).2 q n = [c] := by
  have hne : _norm q ≠ [] := by
    have hmem := mem_dictKeys_of_dictFind _ _ _ h
    exact rebuild_alias_keys_ne_nil raw ([], []) (by intro k hk; simp [dictKeys] at hk)
      (_norm q) hmem
  exact search_foods_exact _ _ _ _ hne h

/-- C2 witness: the spec scenario `resolve("шпінат", 5) = ["spinach"]`. -/
theorem c2_exact_alias_witness :
    search_foods (rebuild_indexes spinachCorpus).2 "шпінат".data 5 = ["spinach".data] :=
  c2_exact_alias spinachCorpus "шпінат".data 5 "spinach".data (by decide)

/-- C3: every alias string registered for a record (its names and synonyms in
both languages with non-empty normalization) resolves, in its unnormalized
form with limit 1, to that record's canonical key, provided no later record
registers the same normalized variant. -/
theorem c3_alias_roundtrip (pre post : List (Str × RawItem)) (k : Str) (it : RawItem)
    (s : Str) (hs : s ∈ aliasSources (mkItem k it)) (hns : _norm s ≠ [])
    (hpost : ∀ kv ∈ post, ∀ t ∈ aliasSources (mkItem kv.1 kv.2), _norm t ≠ _norm s) :
    search_foods (rebuild_indexes (pre ++ (k, it) :: post)).2 s 1 =
      [pyLowerStr (mkItem k it).name_en] := by
  have hfind : dictFind (rebuild_indexes (pre ++ (k, it) :: post)).2 (_norm s) =
      some (pyLowerStr (mkItem k it).name_en) := by
    unfold rebuild_indexes
    rw [List.foldl_append, List.foldl_cons]
    rw [foldl_recordStep_find_preserve post (_norm s) hpost]
    exact aliasFold_find_of_mem _ _ _ hns ⟨s, hs, rfl⟩ _
  exact search_foods_exact _ _ _ _ hns hfind

/-- C3 witness: the synonym `шпінат` of the spec corpus round-trips to the
canonical key `spinach`. -/
theorem c3_alias_roundtrip_witness :
    search_foods (rebuild_indexes ([] ++ ("spinach".data, spinachRaw) :: [])).2
      "шпінат".data 1 = [pyLowerStr (mkItem "spinach".data spinachRaw).name_en] :=
  c3_alias_roundtrip [] [] "spinach".data spinachRaw "шпінат".data
    (by decide) (by decide) (by decide)

/-- C4 counterexample: the Kelvin sign U+212A is outside the allowed set of
the claim (it is neither an ASCII Latin letter, nor a Cyrillic letter of the
secondary language, nor a digit, whitespace, hyphen or apostrophe), yet
Python `str.lower()` maps it to `k`, so `_norm` of the one-character string
`"K"` is the non-empty string `"k"` — and a corpus registering the
alias `k` even resolves it to a record. -/
theorem c4_counterexample :
    specAllowedChar (Char.ofNat 0x212A) = false ∧
    _norm [Char.ofNat 0x212A] = "k".data ∧ "k".data ≠ ([] : Str) ∧
    search_foods [(['k'], "kale".data)] [Char.ofNat 0x212A] 5 = ["kale".data] := by
  decide

/-- C4 (amended): a string made only of characters outside the allowed set
(Latin or secondary-language Cyrillic letters of either case, digits,
whitespace, hyphen, apostrophe variants), and distinct from the two
compatibility characters whose Unicode lowercase is an allowed letter (the
Kelvin sign U+212A and the dotted capital I U+0130), normalizes to the empty
string, and resolving it returns the empty list for every alias map and
limit. -/
theorem c4_disallowed (q : Str)
    (h : ∀ c ∈ q, specAllowedChar c = false ∧ c.toNat ≠ 0x212A ∧ c.toNat ≠ 0x130) :
    _norm q = [] ∧ ∀ aliasD n, search_foods aliasD q n = [] := by
  have hq := norm_eq_nil_of_disallowed q h
  exact ⟨hq, fun aliasD n => search_foods_nil aliasD q n hq⟩

/-- C4 witness: punctuation-only input yields no normalization and no
results. -/
theorem c4_disallowed_witness :
    _norm "!?№".data = [] ∧
      search_foods [("spinach".data, "spinach".data)] "!?№".data 5 = [] :=
  ⟨(c4_disallowed "!?№".data (by decide)).1,
   (c4_disallowed "!?№".data (by decide)).2 [("spinach".data, "spinach".data)] 5⟩

/-- C5: for a non-empty resolver result, `cmd_food` compares the normalized
query against the concatenated display names and synonyms of the top record;
below `0.75` it presents the full candidate list, otherwise it auto-accepts
the top candidate. -/
theorem c5_confidence (foods : List (Str × FoodItem)) (aliasD : List (Str × Str))
    (q key : Str) (rest : List Str) (h : search_foods aliasD q 7 = key :: rest) :
    (ratioLtB (_norm q) (_norm (refText foods key)) 3 4 = true →
      cmd_food foods aliasD q = .didYouMean (key :: rest)) ∧
    (ratioLtB (_norm q) (_norm (refText foods key)) 3 4 = false →
      cmd_food foods aliasD q = .card key) := by
  constructor <;> intro hr <;> simp [cmd_food, h, hr]

/-- C5 witness: `spinch` resolves to `spinach` but scores `12/27 < 0.75`
against the reference text, so the disambiguation list is shown. -/
theorem c5_confidence_witness :
    cmd_food (rebuild_indexes spinachCorpus).1 (rebuild_indexes spinachCorpus).2
      "spinch".data = .didYouMean ["spinach".data] :=
  (c5_confidence (rebuild_indexes spinachCorpus).1 (rebuild_indexes spinachCorpus).2
    "spinch".data "spinach".data [] (by decide)).1 (by decide)

/-- C6: merging a base corpus with an override corpus replaces overridden
records wholesale: a key present in the override maps to exactly the
override's record (so fields present only in the base record do not leak),
and keys absent from the override keep their base record. -/
theorem c6_override_merge (base user : List (Str × RawItem)) (k : Str)
    (hnd : (dictKeys user).Nodup) :
    (∀ v, dictFind user k = some v →
      dictFind (load_foods_merged (.ok base) (.ok user)) k = some v) ∧
    (dictFind user k = none →
      dictFind (load_foods_merged (.ok base) (.ok user)) k = dictFind base k) := by
  constructor
  · intro v hv
    exact dictMerge_find_override user k v hnd hv base
  · intro hnone
    exact dictMerge_find_base user k hnone base

/-- C6 witness: overriding the spinach record with an all-default record
yields exactly the override record; the base name and synonyms do not leak. -/
theorem c6_override_merge_witness :
    dictFind (load_foods_merged (.ok [("spinach".data, spinachRaw)])
      (.ok [("spinach".data, ({} : RawItem))])) "spinach".data = some ({} : RawItem) :=
  (c6_override_merge [("spinach".data, spinachRaw)] [("spinach".data, ({} : RawItem))]
    "spinach".data (by decide)).1 ({} : RawItem) (by decide)

/-- C7: for every pair list, integer page index and positive page size, the
page built by `_alphabet_pages` shows the `«` button exactly when the page
index is positive, shows the `»` button exactly when `(page+1)*pageSize`
is below the item count, and a page index at or beyond the end yields an
empty slice with no `»` button; no input raises (the function is total). -/
theorem c7_pager (pairs : List (Str × Str)) (page per : Int) (hper : 0 < per) :
    (BtnIn (_alphabet_pages pairs page per) (prevBtn page) ↔ 0 < page) ∧
    (BtnIn (_alphabet_pages pairs page per) (nextBtn page) ↔
      (page + 1) * per < (pairs.length : Int)) ∧
    ((pairs.length : Int) ≤ page * per →
      pySlice pairs (page * per) (page * per + per) = [] ∧
      ¬ BtnIn (_alphabet_pages pairs page per) (nextBtn page)) := by
  have hdist : (page + 1) * per = page * per + per := by ring
  have hprev : BtnIn (_alphabet_pages pairs page per) (prevBtn page) ↔ 0 < page := by
    rw [btnIn_alphabet_pages]
    constructor
    · rintro (⟨p, _, hb⟩ | hb)
      · exact absurd hb.symm (showBtn_ne_prevBtn p page)
      · by_cases hpage : 0 < page
        · exact hpage
        · rw [if_neg hpage] at hb
          simp only [List.nil_append] at hb
          by_cases hnext : page * per + per < (pairs.length : Int)
          · rw [if_pos hnext] at hb
            simp at hb
            exact absurd hb (prevBtn_ne_nextBtn page page)
          · rw [if_neg hnext] at hb
            simp at hb
    · intro hpage
      right
      rw [if_pos hpage]
      simp
  have hnext : BtnIn (_alphabet_pages pairs page per) (nextBtn page) ↔
      (page + 1) * per < (pairs.length : Int) := by
    rw [btnIn_alphabet_pages, hdist]
    constructor
    · rintro (⟨p, _, hb⟩ | hb)
      · exact absurd hb.symm (showBtn_ne_nextBtn p page)
      · by_cases hn : page * per + per < (pairs.length : Int)
        · exact hn
        · rw [if_neg hn] at hb
          simp only [List.append_nil] at hb
          by_cases hpage : 0 < page
          · rw [if_pos hpage] at hb
            simp at hb
            exact absurd hb.symm (prevBtn_ne_nextBtn page page)
          · rw [if_neg hpage] at hb
            simp at hb
    · intro hn
      right
      rw [if_pos hn]
      exact List.mem_append.mpr (Or.inr (by simp))
  refine ⟨hprev, hnext, ?_⟩
  intro hle
  refine ⟨pySlice_eq_nil_of_le pairs _ _ hle, ?_⟩
  intro hbtn
  have := hnext.mp hbtn
  omega

/-- C7 witness: the spec example, three items with page 1 of size 2: the
second page exists, so the back button is present. -/
theorem c7_pager_witness :
    BtnIn (_alphabet_pages [(['k', '1'], "Apple".data), (['k', '2'], "Banana".data),
      (['k', '3'], "Cherry".data)] 1 2) (prevBtn 1) :=
  (c7_pager [(['k', '1'], "Apple".data), (['k', '2'], "Banana".data),
    (['k', '3'], "Cherry".data)] 1 2 (by decide)).1.mpr (by decide)

/-- C8: a missing or corrupt corpus file loads as the empty dict, the merged
corpus is then empty, and the program continues in a degraded state in which
every search returns the empty list. -/
theorem c8_load_failure (b u : FileState RawItem)
    (hb : b = .missing ∨ b = .corrupt) (hu : u = .missing ∨ u = .corrupt) :
    _load_json_dict b = [] ∧ load_foods_merged b u = [] ∧
    (∀ q n, search_foods (rebuild_indexes (load_foods_merged b u)).2 q n = []) := by
  have hb2 : _load_json_dict b = [] := by rcases hb with h | h <;> rw [h] <;> rfl
  have hu2 : _load_json_dict u = [] := by rcases hu with h | h <;> rw [h] <;> rfl
  have hm : load_foods_merged b u = [] := by
    unfold load_foods_merged
    rw [hb2, hu2]
    rfl
  refine ⟨hb2, hm, ?_⟩
  intro q n
  rw [hm]
  by_cases hq : _norm q = []
  · exact search_foods_nil _ _ _ hq
  · simp only [search_foods, rebuild_indexes, List.foldl_nil]
    rw [if_neg hq, if_neg (by simp [dictFind])]
    simp only [get_close_matches, closeCands, dictKeys, List.filterMap_nil, sortDesc,
      List.foldr_nil, List.take_nil, List.map_nil]
    rfl

/-- C8 witness: with the base file missing and the override file corrupt the
merged corpus is empty and a search finds nothing. -/
theorem c8_load_failure_witness :
    load_foods_merged (.missing : FileState RawItem) .corrupt = [] ∧
    search_foods (rebuild_indexes (load_foods_merged (.missing : FileState RawItem)
      .corrupt)).2 "kale".data 5 = [] :=
  ⟨(c8_load_failure .missing .corrupt (Or.inl rfl) (Or.inr rfl)).2.1,
   (c8_load_failure .missing .corrupt (Or.inl rfl) (Or.inr rfl)).2.2 "kale".data 5⟩

/-- C9: in every index pair built by `rebuild_indexes`, every alias value is
a key of the foods dict, and consequently every canonical key returned by
`search_foods` (exact or fuzzy path) is found in the foods dict. -/
theorem c9_resolver_keys_valid (raw : List (Str × RawItem)) :
    (∀ p ∈ (rebuild_indexes raw).2, p.2 ∈ dictKeys (rebuild_indexes raw).1) ∧
    (∀ q n k, k ∈ search_foods (rebuild_indexes raw).2 q n →
      (dictFind (rebuild_indexes raw).1 k).isSome = true) := by
  have hinv : ∀ p ∈ (rebuild_indexes raw).2, p.2 ∈ dictKeys (rebuild_indexes raw).1 :=
    rebuild_alias_vals_in_foods raw ([], []) (by intro p hp; simp at hp)
  refine ⟨hinv, ?_⟩
  intro q n k hk
  apply dictFind_isSome_of_mem_dictKeys
  by_cases hq : _norm q = []
  · rw [search_foods_nil _ _ _ hq] at hk
    simp at hk
  · simp only [search_foods] at hk
    rw [if_neg hq] at hk
    by_cases hex : (dictFind (rebuild_indexes raw).2 (_norm q)).isSome = true
    · rw [if_pos hex] at hk
      simp at hk
      obtain ⟨v, hv⟩ := Option.isSome_iff_exists.mp hex
      have hmem := hinv _ (dictFind_mem _ _ _ hv)
      rw [hk]
      unfold dictGet
      rw [hv]
      exact hmem
    · rw [if_neg hex] at hk
      rcases collectGo_subset _ n _ [] k hk with h2 | ⟨m, hm, hkm⟩
      · simp at h2
      · have hmkeys : m ∈ dictKeys (rebuild_indexes raw).2 :=
          get_close_matches_subset _ _ _ _ _ m hm
        obtain ⟨v, hv⟩ :=
          Option.isSome_iff_exists.mp (dictFind_isSome_of_mem_dictKeys _ _ hmkeys)
        have hmem := hinv _ (dictFind_mem _ _ _ hv)
        rw [hkm]
        unfold dictGet
        rw [hv]
        exact hmem

/-- C9 witness: the fuzzy result for `spinch` indexes an existing record. -/
theorem c9_resolver_keys_valid_witness :
    (dictFind (rebuild_indexes spinachCorpus).1 "spinach".data).isSome = true :=
  (c9_resolver_keys_valid spinachCorpus).2 "spinch".data 7 "spinach".data (by decide)

/-- C10: for every alias map, query and integer limit `n`, the resolver
returns at most `max(n, 1)` keys, and for `n <= 0` it still returns a single
key (not zero) whenever anything matches, because the length check runs only
after the first candidate is appended. -/
theorem c10_limit_bound (aliasD : List (Str × Str)) (q : Str) (n : Int) :
    ((search_foods aliasD q n).length : Int) ≤ max n 1 ∧
    (n ≤ 0 → search_foods aliasD q n = [] ∨ (search_foods aliasD q n).length = 1) := by
  constructor
  · by_cases hq : _norm q = []
    · rw [search_foods_nil _ _ _ hq]
      simp only [List.length_nil, Nat.cast_zero]
      omega
    · simp only [search_foods]
      rw [if_neg hq]
      by_cases hex : (dictFind aliasD (_norm q)).isSome = true
      · rw [if_pos hex]
        simp only [List.length_singleton, Nat.cast_one]
        omega
      · rw [if_neg hex]
        exact collectGo_length aliasD n _ [] (Or.inr rfl)
  · intro hn
    by_cases hq : _norm q = []
    · rw [search_foods_nil _ _ _ hq]
      exact Or.inl rfl
    · simp only [search_foods]
      rw [if_neg hq]
      by_cases hex : (dictFind aliasD (_norm q)).isSome = true
      · rw [if_pos hex]
        exact Or.inr rfl
      · rw [if_neg hex]
        cases hm : get_close_matches (_norm q) (dictKeys aliasD) (max (n * 3) 60).toNat
          45 100 with
        | nil => exact Or.inl rfl
        | cons m ms =>
          right
          rw [collectGo_cons]
          simp only []
          rw [if_neg (show ¬(memStr (dictGet aliasD m) ([] : List Str) = true) by
            simp [memStr])]
          have hcond : n ≤ ((([] : List Str) ++ [dictGet aliasD m]).length : Int) := by
            simp only [List.nil_append, List.length_singleton, Nat.cast_one]
            omega
          rw [if_pos hcond]
          simp
/-- C10 witness: an exact hit with limit 0 still returns one key. -/
theorem c10_limit_bound_witness :
    search_foods (rebuild_indexes spinachCorpus).2 "шпінат".data 0 = [] ∨
    (search_foods (rebuild_indexes spinachCorpus).2 "шпінат".data 0).length = 1 :=
  (c10_limit_bound (rebuild_indexes spinachCorpus).2 "шпінат".data 0).2 (by decide)
